import Mathlib

/-!
# Verification of the airqua scraping/sync pipeline

Shallow embedding of the core algorithms of the `airqua` repository
(`src/airnow.py`, `src/data_handler.py`) and proofs of the spec's claims
about them.

Strings that the Python code builds out of decimal digits are modelled as
`List Char`; Python `f"{x:0>w}"` zero-padding, `str.replace`, and decimal
rendering of non-negative integers are embedded explicitly below.
-/

namespace AirQua

/-! ## Decimal digit strings

`digitChar n` is the character Python's `str()` uses for the digit `n`;
`natDigits n` is the character list of Python `str(n)` for a non-negative
integer; `padLeft w s` is Python `f"{s:0>w}"` (left-pad with `'0'` up to
width `w`, no truncation). -/

def digitChar (n : Nat) : Char := Char.ofNat (48 + n)

/-- Fuel-driven decimal rendering; `fuel` only forces termination and is
irrelevant once it exceeds `n` (`natDigitsAux_congr`). -/
def natDigitsAux : Nat → Nat → List Char
  | 0, _ => []
  | fuel + 1, n =>
    if n < 10 then [digitChar n]
    else natDigitsAux fuel (n / 10) ++ [digitChar (n % 10)]

def natDigits (n : Nat) : List Char := natDigitsAux (n + 1) n

theorem natDigitsAux_congr : ∀ {n f g : Nat}, n < f → n < g →
    natDigitsAux f n = natDigitsAux g n := by
  intro n
  induction n using Nat.strong_induction_on with
  | _ n ih =>
    intro f g hf hg
    match f, g with
    | f + 1, g + 1 =>
      simp only [natDigitsAux]
      split
      · rfl
      · rename_i hn
        have hdiv : n / 10 < n := Nat.div_lt_self (by omega) (by omega)
        have h1 : natDigitsAux f (n / 10) = natDigitsAux g (n / 10) :=
          ih (n / 10) hdiv (by omega) (by omega)
        rw [h1]

/-- The recursive unfolding of `natDigits`, mirroring Python `str(n)`
digit by digit. -/
theorem natDigits_def (n : Nat) :
    natDigits n = if n < 10 then [digitChar n]
      else natDigits (n / 10) ++ [digitChar (n % 10)] := by
  unfold natDigits
  rw [natDigitsAux]
  split
  · rfl
  · rename_i hn
    have hdiv : n / 10 < n := Nat.div_lt_self (by omega) (by omega)
    have h1 : natDigitsAux n (n / 10) = natDigitsAux (n / 10 + 1) (n / 10) :=
      natDigitsAux_congr (by omega) (by omega)
    rw [h1]

def padLeft (w : Nat) (s : List Char) : List Char :=
  List.replicate (w - s.length) '0' ++ s

/-- Numeric value of a digit character (Python `int(c)` on `'0'..'9'`). -/
def charVal (c : Char) : Nat := c.toNat - 48

/-- Decimal parse of a digit string, used only in proofs as a left inverse
of the rendering functions. -/
def parseNat (s : List Char) : Nat := s.foldl (fun a c => 10 * a + charVal c) 0

theorem charVal_digitChar {n : Nat} (h : n < 10) : charVal (digitChar n) = n := by
  interval_cases n <;> decide

theorem digitChar_ne_slash {n : Nat} (h : n < 10) : digitChar n ≠ '/' := by
  interval_cases n <;> decide

theorem natDigits_ne_nil (n : Nat) : natDigits n ≠ [] := by
  rw [natDigits_def]
  split <;> simp

theorem mem_natDigits {c : Char} {n : Nat} (h : c ∈ natDigits n) :
    ∃ k, k < 10 ∧ c = digitChar k := by
  induction n using Nat.strong_induction_on with
  | _ n ih =>
    rw [natDigits_def] at h
    split at h
    · simp only [List.mem_singleton] at h
      exact ⟨n, by omega, h⟩
    · rename_i hn
      rcases List.mem_append.mp h with h' | h'
      · exact ih (n / 10) (Nat.div_lt_self (by omega) (by omega)) h'
      · simp only [List.mem_singleton] at h'
        exact ⟨n % 10, Nat.mod_lt _ (by omega), h'⟩

theorem foldl_natDigits (n : Nat) :
    ∀ a : Nat, (natDigits n).foldl (fun a c => 10 * a + charVal c) a
      = a * 10 ^ (natDigits n).length + n := by
  induction n using Nat.strong_induction_on with
  | _ n ih =>
    intro a
    rw [natDigits_def]
    split
    · rename_i hn
      simp [List.foldl, charVal_digitChar hn]
      ring
    · rename_i hn
      rw [List.foldl_append, ih (n / 10) (Nat.div_lt_self (by omega) (by omega)) a]
      simp only [List.foldl, List.length_append, List.length_singleton]
      rw [charVal_digitChar (Nat.mod_lt _ (by omega))]
      have : n = 10 * (n / 10) + n % 10 := (Nat.div_add_mod' n 10).symm ▸ by
        omega
      rw [pow_succ]
      ring_nf
      omega

theorem parseNat_natDigits (n : Nat) : parseNat (natDigits n) = n := by
  unfold parseNat
  rw [foldl_natDigits n 0]
  simp

theorem parseNat_padLeft (w n : Nat) : parseNat (padLeft w (natDigits n)) = n := by
  unfold parseNat padLeft
  rw [List.foldl_append]
  have hrep : ∀ k, (List.replicate k '0').foldl (fun a c => 10 * a + charVal c) 0 = 0 := by
    intro k
    induction k with
    | zero => rfl
    | succ k ihk => simpa [List.replicate_succ, charVal] using ihk
  rw [hrep]
  exact parseNat_natDigits n

theorem natDigits_length_le {n w : Nat} (hw : 1 ≤ w) (h : n < 10 ^ w) :
    (natDigits n).length ≤ w := by
  induction w generalizing n with
  | zero => omega
  | succ w ihw =>
    rw [natDigits_def]
    split
    · simp
    · rename_i hn
      have hw1 : 1 ≤ w := by
        by_contra hc
        have : w = 0 := by omega
        subst this
        simp [pow_succ] at h
        omega
      have hdiv : n / 10 < 10 ^ w := by
        rw [Nat.div_lt_iff_lt_mul (by omega)]
        calc n < 10 ^ (w + 1) := h
        _ = 10 ^ w * 10 := by rw [pow_succ]
      have := ihw hw1 hdiv
      simp only [List.length_append, List.length_singleton]
      omega

theorem natDigits_length_ge {n w : Nat} (h : 10 ^ w ≤ n) :
    w + 1 ≤ (natDigits n).length := by
  induction w generalizing n with
  | zero =>
    have := natDigits_ne_nil n
    cases hd : natDigits n with
    | nil => exact absurd hd this
    | cons a l => simp
  | succ w ihw =>
    have hn : 10 ≤ n := by
      have h10 : (10 : Nat) ^ 1 ≤ 10 ^ (w + 1) := Nat.pow_le_pow_right (by omega) (by omega)
      simpa using le_trans h10 h
    rw [natDigits_def]
    rw [if_neg (by omega)]
    have hdiv : 10 ^ w ≤ n / 10 := by
      rw [Nat.le_div_iff_mul_le (by omega)]
      calc 10 ^ w * 10 = 10 ^ (w + 1) := (pow_succ 10 w).symm
      _ ≤ n := h
    have := ihw hdiv
    simp only [List.length_append, List.length_singleton]
    omega

theorem padLeft_length {w : Nat} {s : List Char} (h : s.length ≤ w) :
    (padLeft w s).length = w := by
  simp [padLeft]
  omega

theorem natDigits_length_eq_of_bounds {n w : Nat} (hlo : 10 ^ (w - 1) ≤ n)
    (hhi : n < 10 ^ w) (hw : 1 ≤ w) : (natDigits n).length = w := by
  have h1 := natDigits_length_le hw hhi
  have h2 := natDigits_length_ge hlo
  omega

/-! ## C4: days-in-month (`get_data_by_month`, src/airnow.py lines 342-347)

```python
if month <= 6:
    max_day = 31
elif (month <= 11) or (year % 33 in [1, 5, 9, 13, 17, 22, 26, 30]):
    max_day = 30
else:
    max_day = 29
```
The day loop is `for day in range(1, max_day + 1)`. -/

def leapResidues : List Nat := [1, 5, 9, 13, 17, 22, 26, 30]

def maxDay (year month : Nat) : Nat :=
  if month ≤ 6 then 31
  else if month ≤ 11 ∨ year % 33 ∈ leapResidues then 30
  else 29

/-- The `range(1, max_day + 1)` day loop of `get_data_by_month`. -/
def dayLoop (year month : Nat) : List Nat := List.range' 1 (maxDay year month)

/-! ## C1: composite primary key (`_clean_output_table`, src/airnow.py lines 464-486)

```python
table.index = table.apply(
    lambda row: f"{row.Date.replace('/', '')}{row.Hour:0>2}{str(row.Station):0>3}",
    axis="columns",
)
```
`row.Date` is a `"YYYY/MM/DD"` string (built as
`f"{year}/{str(month):0>2}/{str(day):0>2}"` in `get_data_by_day` /
`get_data_by_station`), `row.Hour` an `int`, `row.Station` the mapped
station id. -/

/-- Python `s.replace('/', '')`. -/
def removeSlash (s : List Char) : List Char := s.filter (fun c => c ≠ '/')

/-- `f"{row.Hour:0>2}"` for an integer hour. -/
def hourStr (h : Nat) : List Char := padLeft 2 (natDigits h)

/-- `f"{str(row.Station):0>3}"` for an integer station id. -/
def stationStr (s : Nat) : List Char := padLeft 3 (natDigits s)

/-- The date string `f"{year}/{str(month):0>2}/{str(day):0>2}"`. -/
def mkDateStr (y m d : Nat) : List Char :=
  natDigits y ++ '/' :: padLeft 2 (natDigits m) ++ '/' :: padLeft 2 (natDigits d)

/-- The composite primary key of one row:
`f"{row.Date.replace('/', '')}{row.Hour:0>2}{str(row.Station):0>3}"`. -/
def compositeKey (date : List Char) (hour station : Nat) : List Char :=
  removeSlash date ++ hourStr hour ++ stationStr station

theorem removeSlash_natDigits (n : Nat) : removeSlash (natDigits n) = natDigits n := by
  unfold removeSlash
  apply List.filter_eq_self.mpr
  intro c hc
  obtain ⟨k, hk, rfl⟩ := mem_natDigits hc
  simpa using digitChar_ne_slash hk

theorem removeSlash_padLeft (w n : Nat) :
    removeSlash (padLeft w (natDigits n)) = padLeft w (natDigits n) := by
  unfold removeSlash padLeft
  apply List.filter_eq_self.mpr
  intro c hc
  rcases List.mem_append.mp hc with h | h
  · have := List.eq_of_mem_replicate h
    subst this
    decide
  · obtain ⟨k, hk, rfl⟩ := mem_natDigits h
    simpa using digitChar_ne_slash hk

theorem removeSlash_append (a b : List Char) :
    removeSlash (a ++ b) = removeSlash a ++ removeSlash b :=
  List.filter_append ..

theorem removeSlash_mkDateStr (y m d : Nat) :
    removeSlash (mkDateStr y m d)
      = natDigits y ++ padLeft 2 (natDigits m) ++ padLeft 2 (natDigits d) := by
  unfold mkDateStr
  rw [show ('/' :: padLeft 2 (natDigits m) = ['/'] ++ padLeft 2 (natDigits m)) from rfl,
    show ('/' :: padLeft 2 (natDigits d) = ['/'] ++ padLeft 2 (natDigits d)) from rfl]
  simp only [removeSlash_append, removeSlash_natDigits, removeSlash_padLeft]
  have hslash : removeSlash ['/'] = [] := by decide
  rw [hslash]
  simp

/-- Splitting equal concatenations whose left parts have equal length. -/
theorem append_cancel_of_length {a b c d : List Char} (h : a ++ b = c ++ d)
    (hl : a.length = c.length) : a = c ∧ b = d :=
  List.append_inj h hl

theorem padLeft_natDigits_inj {w a b : Nat} (h : padLeft w (natDigits a) = padLeft w (natDigits b)) :
    a = b := by
  have := congrArg parseNat h
  rwa [parseNat_padLeft, parseNat_padLeft] at this

theorem natDigits_length_four {y : Nat} (h1 : 1000 ≤ y) (h2 : y ≤ 9999) :
    (natDigits y).length = 4 :=
  natDigits_length_eq_of_bounds (by norm_num; omega) (by norm_num; omega) (by norm_num)

theorem padLeft_two_length {n : Nat} (h : n < 100) :
    (padLeft 2 (natDigits n)).length = 2 :=
  padLeft_length (natDigits_length_le (by norm_num) (by norm_num; omega))

theorem padLeft_three_length {n : Nat} (h : n < 1000) :
    (padLeft 3 (natDigits n)).length = 3 :=
  padLeft_length (natDigits_length_le (by norm_num) (by norm_num; omega))

/-- **C1.** The composite primary key built by `_clean_output_table` is a pure,
deterministic function of (date, hour, station): the key is the date string with
its `/` separators removed, followed by the hour zero-padded to 2 digits and the
station id zero-padded to 3 digits, and on dates with a 4-digit year,
2-digit zero-padded month and day, hours 0-23 and station ids of at most
3 digits, equal keys force equal (date, hour, station) triples and
conversely (so distinct triples always yield distinct key strings, and the
same triple always yields the same key string). -/
theorem compositeKey_deterministic_injective
    (y₁ m₁ d₁ h₁ s₁ y₂ m₂ d₂ h₂ s₂ : Nat)
    (hy₁ : 1000 ≤ y₁) (hy₁u : y₁ ≤ 9999) (hm₁ : m₁ < 100) (hd₁ : d₁ < 100)
    (hh₁ : h₁ ≤ 23) (_hs₁ : s₁ ≤ 999)
    (hy₂ : 1000 ≤ y₂) (hy₂u : y₂ ≤ 9999) (hm₂ : m₂ < 100) (hd₂ : d₂ < 100)
    (hh₂ : h₂ ≤ 23) (_hs₂ : s₂ ≤ 999) :
    compositeKey (mkDateStr y₁ m₁ d₁) h₁ s₁ = compositeKey (mkDateStr y₂ m₂ d₂) h₂ s₂
      ↔ (y₁ = y₂ ∧ m₁ = m₂ ∧ d₁ = d₂ ∧ h₁ = h₂ ∧ s₁ = s₂) := by
  constructor
  · intro h
    unfold compositeKey at h
    rw [removeSlash_mkDateStr, removeSlash_mkDateStr] at h
    unfold hourStr stationStr at h
    simp only [List.append_assoc] at h
    obtain ⟨hY, h⟩ := append_cancel_of_length h
      (by rw [natDigits_length_four hy₁ hy₁u, natDigits_length_four hy₂ hy₂u])
    obtain ⟨hM, h⟩ := append_cancel_of_length h
      (by rw [padLeft_two_length hm₁, padLeft_two_length hm₂])
    obtain ⟨hD, h⟩ := append_cancel_of_length h
      (by rw [padLeft_two_length hd₁, padLeft_two_length hd₂])
    obtain ⟨hH, hS⟩ := append_cancel_of_length h
      (by rw [padLeft_two_length (by omega : h₁ < 100), padLeft_two_length (by omega : h₂ < 100)])
    refine ⟨?_, padLeft_natDigits_inj hM, padLeft_natDigits_inj hD,
      padLeft_natDigits_inj hH, padLeft_natDigits_inj hS⟩
    have := congrArg parseNat hY
    rwa [parseNat_natDigits, parseNat_natDigits] at this
  · rintro ⟨rfl, rfl, rfl, rfl, rfl⟩
    rfl

/-- Witness for C1: the spec's example key, and two distinct triples with
distinct keys. -/
theorem compositeKey_deterministic_injective_witness :
    compositeKey (mkDateStr 1402 2 1) 5 21 = "1402020105021".toList ∧
    compositeKey (mkDateStr 1402 2 1) 5 21 ≠ compositeKey (mkDateStr 1402 2 3) 5 21 := by
  refine ⟨by decide, fun h => ?_⟩
  have := (compositeKey_deterministic_injective 1402 2 1 5 21 1402 2 3 5 21
    (by decide) (by decide) (by decide) (by decide) (by decide) (by decide)
    (by decide) (by decide) (by decide) (by decide) (by decide) (by decide)).mp h
  omega

/-- **C4.** The days-in-month computation of `get_data_by_month`: months 1-6
have 31 days, months 7-11 have 30 days, and month 12 has 30 days exactly when
`year % 33` lies in the leap-residue set `{1,5,9,13,17,22,26,30}` (29 days
otherwise); the day loop runs over exactly the days `1..max_day`. -/
theorem maxDay_spec (year month : Nat) (h1 : 1 ≤ month) (h2 : month ≤ 12) :
    (month ≤ 6 → maxDay year month = 31) ∧
    (7 ≤ month → month ≤ 11 → maxDay year month = 30) ∧
    (month = 12 →
      maxDay year month = if year % 33 ∈ leapResidues then 30 else 29) ∧
    dayLoop year month = List.range' 1 (maxDay year month) := by
  refine ⟨?_, ?_, ?_, rfl⟩
  · intro h
    simp [maxDay, h]
  · intro ha hb
    rw [maxDay, if_neg (by omega), if_pos (Or.inl hb)]
  · rintro rfl
    by_cases hleap : year % 33 ∈ leapResidues
    · rw [maxDay, if_neg (by omega), if_pos (Or.inr hleap), if_pos hleap]
    · rw [maxDay, if_neg (by omega), if_neg (by simp [hleap]), if_neg hleap]

/-- Witness for C4 at concrete inputs: month 3 of year 1402 has 31 days,
month 8 has 30, month 12 of a year with residue 1 has 30 and of a year
with residue 2 has 29. -/
theorem maxDay_spec_witness :
    maxDay 1402 3 = 31 ∧ maxDay 1402 8 = 30 ∧ maxDay 34 12 = 30 ∧ maxDay 35 12 = 29 := by
  refine ⟨(maxDay_spec 1402 3 (by decide) (by decide)).1 (by decide),
    (maxDay_spec 1402 8 (by decide) (by decide)).2.1 (by decide) (by decide),
    ?_, ?_⟩
  · rw [(maxDay_spec 34 12 (by decide) (by decide)).2.2.1 rfl]
    decide
  · rw [(maxDay_spec 35 12 (by decide) (by decide)).2.2.1 rfl]
    decide

/-! ## C2, C3, C8: `upsert_results` (src/data_handler.py lines 139-161)

```python
with self.engine.connect() as connection:
    ids = str(table.index.to_list()).replace("[", "(").replace("]", ")")
    connection.execute(sa.text(f"DELETE FROM {table_name} WHERE ID IN {ids}"))
    connection.commit()
table.to_sql(table_name, self.engine, if_exists="append", chunksize=10_000)
```

A table state is a list of (primary key, row payload) pairs. The `DELETE`
removes every existing row whose key is in the input's key list; the
`to_sql(..., if_exists="append")` then appends the input rows. Note that
`connection.commit()` commits the delete on its own connection *before*
`to_sql` opens a fresh connection for the insert: the two steps are two
separate transactions, which `upsertCommitStates` records. -/

section Upsert

variable {α β : Type} [DecidableEq α]

/-- `DELETE FROM {table_name} WHERE ID IN {ids}`. -/
def deleteByIds (table : List (α × β)) (ids : List α) : List (α × β) :=
  table.filter (fun r => decide (r.1 ∉ ids))

/-- `upsert_results`: delete the rows whose key occurs in the input, then
append the input rows. -/
def upsert_results (table input : List (α × β)) : List (α × β) :=
  deleteByIds table (input.map Prod.fst) ++ input

/-- The successive durably-committed table states of one `upsert_results`
call: the initial state, the state after the `DELETE` transaction commits
(`connection.commit()`), and the state after the separate `to_sql` insert
commits. -/
def upsertCommitStates (table input : List (α × β)) : List (List (α × β)) :=
  [table,
   deleteByIds table (input.map Prod.fst),
   deleteByIds table (input.map Prod.fst) ++ input]

theorem deleteByIds_append (a b : List (α × β)) (ids : List α) :
    deleteByIds (a ++ b) ids = deleteByIds a ids ++ deleteByIds b ids :=
  List.filter_append ..

theorem deleteByIds_self_keys (input : List (α × β)) :
    deleteByIds input (input.map Prod.fst) = [] := by
  unfold deleteByIds
  rw [List.filter_eq_nil_iff]
  intro r hr
  simp only [decide_eq_true_eq, Decidable.not_not]
  exact List.mem_map_of_mem Prod.fst hr

theorem deleteByIds_idem (table : List (α × β)) (ids : List α) :
    deleteByIds (deleteByIds table ids) ids = deleteByIds table ids := by
  unfold deleteByIds
  rw [List.filter_filter]
  simp

/-- **C2.** Upsert is idempotent: applying `upsert_results` twice with the
same input rows leaves exactly the table state (hence row count and content)
that one application produces. -/
theorem upsert_results_idempotent (table input : List (α × β)) :
    upsert_results (upsert_results table input) input = upsert_results table input ∧
    (upsert_results (upsert_results table input) input).length
      = (upsert_results table input).length := by
  have h : upsert_results (upsert_results table input) input = upsert_results table input := by
    unfold upsert_results
    rw [deleteByIds_append, deleteByIds_self_keys, deleteByIds_idem, List.append_nil]
  exact ⟨h, by rw [h]⟩

/-- **C3.** Upsert affects only the keys present in its input: after
`upsert_results`, the rows carrying a key of the input are exactly the input
rows with that key, and the rows carrying any other key are exactly the
pre-existing rows with that key. -/
theorem upsert_results_frame (table input : List (α × β)) :
    (∀ k, k ∈ input.map Prod.fst →
      (upsert_results table input).filter (fun r => decide (r.1 = k))
        = input.filter (fun r => decide (r.1 = k))) ∧
    (∀ k, k ∉ input.map Prod.fst →
      (upsert_results table input).filter (fun r => decide (r.1 = k))
        = table.filter (fun r => decide (r.1 = k))) := by
  constructor
  · intro k hk
    unfold upsert_results deleteByIds
    rw [List.filter_append, List.filter_filter, List.filter_eq_nil_iff.mpr, List.nil_append]
    intro r hr
    simp only [Bool.and_eq_true, decide_eq_true_eq, not_and]
    intro hrk
    simp [hrk ▸ hk]
  · intro k hk
    unfold upsert_results deleteByIds
    rw [List.filter_append, List.filter_filter]
    have hinput : input.filter (fun r => decide (r.1 = k)) = [] := by
      rw [List.filter_eq_nil_iff]
      intro r hr
      simp only [decide_eq_true_eq]
      intro hrk
      exact hk (hrk ▸ List.mem_map_of_mem Prod.fst hr)
    rw [hinput, List.append_nil]
    apply List.filter_congr
    intro r hr
    by_cases hrk : r.1 = k
    · simp [hrk, hk]
    · simp [hrk]

/-- Witness for C3 at a concrete table and input: the overlapping key `2` is
replaced, the non-overlapping key `1` is untouched. -/
theorem upsert_results_frame_witness :
    (upsert_results [(1, 10), (2, 20)] [(2, 99)]).filter (fun r => decide (r.1 = 2))
      = [(2, 99)] ∧
    (upsert_results [(1, 10), (2, 20)] [(2, 99)]).filter (fun r => decide (r.1 = 1))
      = [(1, 10)] :=
  ⟨((upsert_results_frame [(1, 10), (2, 20)] [(2, 99)]).1 2 (by decide)).trans (by decide),
    ((upsert_results_frame [(1, 10), (2, 20)] [(2, 99)]).2 1 (by decide)).trans (by decide)⟩

end Upsert

/-- **C8** (code bug). The delete step of `upsert_results` is committed by
`connection.commit()` in its own transaction before `to_sql` inserts on a
separate connection: the intermediate durably-committed state for a table
holding key `"k"` upserted with new data for `"k"` is the empty table, in
which the previously present key `"k"` is missing — a crash between the
two commits leaves `"k"` permanently absent, contradicting the claimed
single-transaction atomicity. -/
theorem upsert_delete_committed_separately :
    upsertCommitStates [(("k" : String), (0 : Nat))] [("k", 1)]
      = [[("k", 0)], [], [("k", 1)]] ∧
    ("k" ∈ ([(("k" : String), (0 : Nat))]).map Prod.fst) ∧
    ("k" ∉ (([] : List (String × Nat))).map Prod.fst) := by
  refine ⟨?_, by decide, by decide⟩
  rfl

/-! ## C7: chunked upload (`_upload_records`, src/data_handler.py lines 342-373)

```python
left_bound = 0
right_bound = min(chunk_size, len(records))
while left_bound != right_bound:
    report_chunk = records[left_bound:right_bound]
    record_count = right_bound == len(records)
    left_bound = right_bound
    right_bound = min(right_bound + chunk_size, len(records))
    ... self._upload_record_chunk(table_name, report_chunk, record_count) ...
```

The loop state is fully determined by `left_bound` (both bounds follow the
invariant `right_bound = min(left_bound + chunk_size, len(records))`). The
model returns, in order, the `(chunk, record_count)` argument pair of every
`_upload_record_chunk` call the loop performs. `fuel` only forces
termination and is irrelevant once it exceeds the remaining record count
(`uploadLoopAux_nil`, and the fuel argument below always exceeds it). -/

section Upload

variable {α : Type}

def uploadLoopAux (records : List α) (chunkSize : Nat) : Nat → Nat → List (List α × Bool)
  | 0, _ => []
  | fuel + 1, lb =>
    if lb < min (lb + chunkSize) records.length then
      ((records.drop lb).take (min (lb + chunkSize) records.length - lb),
        decide (min (lb + chunkSize) records.length = records.length))
        :: uploadLoopAux records chunkSize fuel (min (lb + chunkSize) records.length)
    else []

/-- The sequence of `_upload_record_chunk(chunk, record_count)` calls made by
`_upload_records(records, chunk_size)`, in order. -/
def uploadCalls (records : List α) (chunkSize : Nat) : List (List α × Bool) :=
  uploadLoopAux records chunkSize (records.length + 1) 0

theorem uploadLoopAux_nil {records : List α} {chunkSize f lb : Nat}
    (h : records.length ≤ lb) : uploadLoopAux records chunkSize f lb = [] := by
  match f with
  | 0 => rfl
  | f + 1 =>
    rw [uploadLoopAux, if_neg]
    have : min (lb + chunkSize) records.length ≤ records.length := Nat.min_le_right ..
    omega

theorem uploadLoopAux_length (records : List α) (chunkSize : Nat) (hC : 1 ≤ chunkSize) :
    ∀ m f lb : Nat, records.length - lb ≤ m → m < f → lb ≤ records.length →
      (uploadLoopAux records chunkSize f lb).length
        = (records.length - lb + chunkSize - 1) / chunkSize := by
  intro m
  induction m using Nat.strong_induction_on with
  | _ m ih =>
    intro f lb hm hf hlb
    match f with
    | f + 1 =>
      rw [uploadLoopAux]
      split
      · rename_i hlt
        have hrble : min (lb + chunkSize) records.length ≤ records.length :=
          Nat.min_le_right ..
        have hrec := ih (records.length - min (lb + chunkSize) records.length)
          (by omega) f (min (lb + chunkSize) records.length) le_rfl (by omega) hrble
        rw [List.length_cons, hrec]
        rcases le_or_lt (lb + chunkSize) records.length with hcase | hcase
        · rw [Nat.min_eq_left hcase]
          have harith : records.length - lb + chunkSize - 1
              = (records.length - (lb + chunkSize) + chunkSize - 1) + chunkSize := by
            omega
          rw [harith, Nat.add_div_right _ (by omega)]
        · rw [Nat.min_eq_right (by omega)]
          have h0 : (records.length - records.length + chunkSize - 1) / chunkSize = 0 :=
            Nat.div_eq_of_lt (by omega)
          rw [h0]
          have hx1 : chunkSize ≤ records.length - lb + chunkSize - 1 := by omega
          have hge : 1 ≤ (records.length - lb + chunkSize - 1) / chunkSize :=
            (Nat.one_le_div_iff (by omega)).mpr hx1
          have hlt2 : (records.length - lb + chunkSize - 1) / chunkSize < 2 :=
            Nat.div_lt_of_lt_mul (by omega)
          omega
      · rename_i hlt
        have hge : records.length ≤ lb := by
          rcases le_or_lt (lb + chunkSize) records.length with hcase | hcase
          · rw [Nat.min_eq_left hcase] at hlt
            omega
          · rw [Nat.min_eq_right (by omega)] at hlt
            omega
        have hlbeq : lb = records.length := by omega
        simp [hlbeq, Nat.div_eq_of_lt (by omega : chunkSize - 1 < chunkSize)]

theorem uploadLoopAux_join (records : List α) (chunkSize : Nat) (hC : 1 ≤ chunkSize) :
    ∀ m f lb : Nat, records.length - lb ≤ m → m < f →
      ((uploadLoopAux records chunkSize f lb).map Prod.fst).flatten
        = records.drop lb := by
  intro m
  induction m using Nat.strong_induction_on with
  | _ m ih =>
    intro f lb hm hf
    match f with
    | f + 1 =>
      rw [uploadLoopAux]
      split
      · rename_i hlt
        have hrble : min (lb + chunkSize) records.length ≤ records.length :=
          Nat.min_le_right ..
        have hrec := ih (records.length - min (lb + chunkSize) records.length)
          (by omega) f (min (lb + chunkSize) records.length) le_rfl (by omega)
        rw [List.map_cons, List.flatten_cons, hrec]
        have hdrop : records.drop (min (lb + chunkSize) records.length)
            = (records.drop lb).drop (min (lb + chunkSize) records.length - lb) := by
          rw [List.drop_drop]
          congr 1
          omega
        rw [hdrop, List.take_append_drop]
      · rename_i hlt
        have hge : records.length ≤ lb := by
          rcases le_or_lt (lb + chunkSize) records.length with hcase | hcase
          · rw [Nat.min_eq_left hcase] at hlt
            omega
          · rw [Nat.min_eq_right (by omega)] at hlt
            omega
        rw [List.drop_eq_nil_of_le hge]
        rfl

theorem uploadLoopAux_flags (records : List α) (chunkSize : Nat) (hC : 1 ≤ chunkSize) :
    ∀ m f lb : Nat, records.length - lb ≤ m → m < f → lb < records.length →
      (uploadLoopAux records chunkSize f lb).map Prod.snd
        = List.replicate ((uploadLoopAux records chunkSize f lb).length - 1) false
            ++ [true] := by
  intro m
  induction m using Nat.strong_induction_on with
  | _ m ih =>
    intro f lb hm hf hlb
    match f with
    | f + 1 =>
      rw [uploadLoopAux]
      rw [if_pos (by omega : lb < min (lb + chunkSize) records.length)]
      rcases Nat.lt_or_ge (min (lb + chunkSize) records.length) records.length with hlt | hge
      · have hrec := ih (records.length - min (lb + chunkSize) records.length)
          (by omega) f (min (lb + chunkSize) records.length) le_rfl (by omega) hlt
        have hlen : 1 ≤ (uploadLoopAux records chunkSize f
            (min (lb + chunkSize) records.length)).length := by
          by_contra hc
          have h0 : (uploadLoopAux records chunkSize f
              (min (lb + chunkSize) records.length)) = [] := by
            cases hx : uploadLoopAux records chunkSize f
              (min (lb + chunkSize) records.length) with
            | nil => rfl
            | cons a l => rw [hx] at hc; simp at hc
          rw [h0] at hrec
          simp at hrec
        rw [List.map_cons, hrec]
        rw [decide_eq_false (by omega)]
        rw [List.length_cons]
        have hrepl : (uploadLoopAux records chunkSize f
              (min (lb + chunkSize) records.length)).length + 1 - 1
            = ((uploadLoopAux records chunkSize f
              (min (lb + chunkSize) records.length)).length - 1) + 1 := by
          omega
        rw [hrepl, List.replicate_succ, List.cons_append]
      · have heq : min (lb + chunkSize) records.length = records.length := by
          have : min (lb + chunkSize) records.length ≤ records.length := Nat.min_le_right ..
          omega
        rw [heq]
        rw [uploadLoopAux_nil le_rfl]
        simp

/-- **C7.** For a nonempty record list and positive chunk size, the
`_upload_records` loop issues exactly `⌈N/C⌉` chunk-upload calls whose chunks
concatenate back to the record list in order (no overlap, no omission), and
passes `record_count = true` on exactly the final call. -/
theorem uploadCalls_spec (records : List α) (chunkSize : Nat)
    (hne : records ≠ []) (hC : 1 ≤ chunkSize) :
    (uploadCalls records chunkSize).length
        = (records.length + chunkSize - 1) / chunkSize ∧
    ((uploadCalls records chunkSize).map Prod.fst).flatten = records ∧
    (uploadCalls records chunkSize).map Prod.snd
        = List.replicate ((uploadCalls records chunkSize).length - 1) false ++ [true] := by
  have hpos : 0 < records.length := List.length_pos.mpr hne
  refine ⟨?_, ?_, ?_⟩
  · have h := uploadLoopAux_length records chunkSize hC records.length
      (records.length + 1) 0 (by omega) (by omega) (by omega)
    simpa [uploadCalls] using h
  · have h := uploadLoopAux_join records chunkSize hC records.length
      (records.length + 1) 0 (by omega) (by omega)
    simpa [uploadCalls] using h
  · exact uploadLoopAux_flags records chunkSize hC records.length
      (records.length + 1) 0 (by omega) (by omega) hpos

end Upload

/-- Witness for C7: five records with chunk size two yield three calls —
`[1,2]` and `[3,4]` without record-count recalculation, then `[5]` with it. -/
theorem uploadCalls_spec_witness :
    uploadCalls [1, 2, 3, 4, 5] 2 = [([1, 2], false), ([3, 4], false), ([5], true)] ∧
    (uploadCalls [1, 2, 3, 4, 5] 2).length = (5 + 2 - 1) / 2 ∧
    ((uploadCalls [1, 2, 3, 4, 5] 2).map Prod.fst).flatten = [1, 2, 3, 4, 5] ∧
    (uploadCalls [1, 2, 3, 4, 5] 2).map Prod.snd
      = List.replicate ((uploadCalls [1, 2, 3, 4, 5] 2).length - 1) false ++ [true] := by
  have h := uploadCalls_spec [1, 2, 3, 4, 5] 2 (by decide) (by decide)
  exact ⟨by decide, h.1, h.2.1, h.2.2⟩

/-! ## C5: establishment-date gating (`get_data_by_day`, src/airnow.py lines 387-394)

```python
date = f"{year}/{str(month):0>2}/{str(day):0>2}"
...
filt = self.stations_info["Date_of_Establishment"] <= date
available_stations = filt[filt].index.to_list()
```

`Date_of_Establishment` holds strings extracted by the regex
`(\d{4}/\d{2}/\d{2})` in `get_stations_info`, so both sides of the pandas
`<=` are `"YYYY/MM/DD"`-shaped strings compared with Python's
lexicographic string order, modelled by `pyStrLE`. -/

/-- Python string `<=`: lexicographic by character code; a strict prefix
compares less-or-equal. -/
def pyStrLE : List Char → List Char → Bool
  | [], _ => true
  | _ :: _, [] => false
  | a :: s, b :: t => if a < b then true else if a = b then pyStrLE s t else false

/-- One row of the `stations_info` table: the station id (the table index)
and its `Date_of_Establishment` string. -/
structure StationInfo where
  id : Nat
  establishment : List Char
deriving DecidableEq

/-- The per-day station filter of `get_data_by_day`: ids of the stations
whose establishment string is `<=` the query date string. -/
def availableStations (stationsInfo : List StationInfo) (date : List Char) : List Nat :=
  (stationsInfo.filter fun s => pyStrLE s.establishment date).map StationInfo.id

/-- Every character of the string is a decimal digit. -/
def IsDigitStr (s : List Char) : Prop := ∀ c ∈ s, ∃ k, k < 10 ∧ c = digitChar k

theorem isDigitStr_natDigits (n : Nat) : IsDigitStr (natDigits n) :=
  fun _ hc => mem_natDigits hc

theorem isDigitStr_padLeft (w n : Nat) : IsDigitStr (padLeft w (natDigits n)) := by
  intro c hc
  rcases List.mem_append.mp hc with h | h
  · exact ⟨0, by omega, (List.eq_of_mem_replicate h).trans (by decide)⟩
  · exact isDigitStr_natDigits n c h

theorem foldl_parse (s : List Char) :
    ∀ a : Nat, s.foldl (fun a c => 10 * a + charVal c) a
      = a * 10 ^ s.length + parseNat s := by
  induction s with
  | nil => intro a; simp [parseNat]
  | cons c t ih =>
    intro a
    have hcons : parseNat (c :: t) = t.foldl (fun a c => 10 * a + charVal c)
        (10 * 0 + charVal c) := rfl
    simp only [List.foldl_cons]
    rw [ih (10 * a + charVal c), hcons, ih (10 * 0 + charVal c), List.length_cons, pow_succ]
    ring

theorem parseNat_cons (c : Char) (t : List Char) :
    parseNat (c :: t) = charVal c * 10 ^ t.length + parseNat t := by
  have hcons : parseNat (c :: t) = t.foldl (fun a c => 10 * a + charVal c)
      (10 * 0 + charVal c) := rfl
  rw [hcons, foldl_parse t (10 * 0 + charVal c)]
  ring_nf

theorem parseNat_lt (s : List Char) (hs : IsDigitStr s) :
    parseNat s < 10 ^ s.length := by
  induction s with
  | nil => simp [parseNat]
  | cons c t ih =>
    rw [parseNat_cons, List.length_cons, pow_succ]
    obtain ⟨k, hk, hck⟩ := hs c (List.mem_cons_self c t)
    have hv : charVal c < 10 := by rw [hck, charVal_digitChar hk]; omega
    have ht := ih (fun x hx => hs x (List.mem_cons_of_mem c hx))
    calc charVal c * 10 ^ t.length + parseNat t
        < charVal c * 10 ^ t.length + 10 ^ t.length := by omega
      _ = (charVal c + 1) * 10 ^ t.length := by ring
      _ ≤ 10 * 10 ^ t.length := Nat.mul_le_mul_right _ (by omega)
      _ = 10 ^ t.length * 10 := by ring

theorem digitChar_lt_iff {i j : Nat} (hi : i < 10) (hj : j < 10) :
    (digitChar i < digitChar j) ↔ i < j := by
  interval_cases i <;> interval_cases j <;> decide

theorem digitChar_eq_iff {i j : Nat} (hi : i < 10) (hj : j < 10) :
    (digitChar i = digitChar j) ↔ i = j := by
  interval_cases i <;> interval_cases j <;> decide

theorem pyStrLE_cons (a b : Char) (s t : List Char) :
    pyStrLE (a :: s) (b :: t)
      = if a < b then true else if a = b then pyStrLE s t else false := rfl

/-- On equal-length digit strings, Python's lexicographic `<=` agrees with
the numeric order of their decimal values. -/
theorem pyStrLE_digits : ∀ (s t : List Char), IsDigitStr s → IsDigitStr t →
    s.length = t.length → (pyStrLE s t = true ↔ parseNat s ≤ parseNat t)
  | [], [], _, _, _ => by simp [pyStrLE, parseNat]
  | [], _ :: _, _, _, hlen => by simp at hlen
  | _ :: _, [], _, _, hlen => by simp at hlen
  | x :: s, y :: t, hs, ht, hlen => by
    obtain ⟨i, hi, hxi⟩ := hs x (List.mem_cons_self x s)
    obtain ⟨j, hj, hyj⟩ := ht y (List.mem_cons_self y t)
    subst hxi
    subst hyj
    have hst : s.length = t.length := by simpa using hlen
    have hsd : IsDigitStr s := fun c hc => hs c (List.mem_cons_of_mem _ hc)
    have htd : IsDigitStr t := fun c hc => ht c (List.mem_cons_of_mem _ hc)
    have hps := parseNat_lt s hsd
    have hpt := parseNat_lt t htd
    rw [parseNat_cons, parseNat_cons, charVal_digitChar hi, charVal_digitChar hj,
      pyStrLE_cons, hst]
    rw [hst] at hps
    rcases lt_trichotomy i j with hij | hij | hij
    · rw [if_pos ((digitChar_lt_iff hi hj).mpr hij)]
      have harith : i * 10 ^ t.length + parseNat s ≤ j * 10 ^ t.length + parseNat t := by
        have h1 : i * 10 ^ t.length + parseNat s < (i + 1) * 10 ^ t.length := by
          calc i * 10 ^ t.length + parseNat s < i * 10 ^ t.length + 10 ^ t.length := by
                omega
            _ = (i + 1) * 10 ^ t.length := by ring
        have h2 : (i + 1) * 10 ^ t.length ≤ j * 10 ^ t.length :=
          Nat.mul_le_mul_right _ (by omega)
        omega
      simp [harith]
    · subst hij
      rw [if_neg (lt_irrefl _), if_pos rfl, pyStrLE_digits s t hsd htd hst]
      omega
    · have hnlt : ¬ digitChar i < digitChar j := by
        rw [digitChar_lt_iff hi hj]
        omega
      have hne : digitChar i ≠ digitChar j := by
        intro hcon
        rw [digitChar_eq_iff hi hj] at hcon
        omega
      rw [if_neg hnlt, if_neg hne]
      have harith : ¬ (i * 10 ^ t.length + parseNat s ≤ j * 10 ^ t.length + parseNat t) := by
        have h1 : j * 10 ^ t.length + parseNat t < (j + 1) * 10 ^ t.length := by
          calc j * 10 ^ t.length + parseNat t < j * 10 ^ t.length + 10 ^ t.length := by
                omega
            _ = (j + 1) * 10 ^ t.length := by ring
        have h2 : (j + 1) * 10 ^ t.length ≤ i * 10 ^ t.length :=
          Nat.mul_le_mul_right _ (by omega)
        omega
      simp [harith]

/-- Comparing concatenations whose left parts have equal length compares the
left parts first. -/
theorem pyStrLE_append : ∀ (a b c d : List Char), a.length = b.length →
    pyStrLE (a ++ c) (b ++ d) = if a = b then pyStrLE c d else pyStrLE a b
  | [], [], c, d, _ => by simp
  | [], _ :: _, _, _, hlen => by simp at hlen
  | _ :: _, [], _, _, hlen => by simp at hlen
  | x :: s, y :: t, c, d, hlen => by
    have hst : s.length = t.length := by simpa using hlen
    rw [List.cons_append, List.cons_append, pyStrLE_cons]
    by_cases hxy : x < y
    · have hne : (x :: s) ≠ (y :: t) := by
        intro hcon
        rw [List.cons.injEq] at hcon
        exact absurd hcon.1 (ne_of_lt hxy)
      rw [if_pos hxy, if_neg hne, pyStrLE_cons, if_pos hxy]
    · by_cases hxeq : x = y
      · subst hxeq
        rw [if_neg (lt_irrefl x), if_pos rfl, pyStrLE_append s t c d hst]
        by_cases hstt : s = t
        · rw [if_pos hstt, if_pos (by rw [hstt])]
        · rw [if_neg hstt, if_neg (by simp [hstt]), pyStrLE_cons,
            if_neg (lt_irrefl x), if_pos rfl]
      · have hne : (x :: s) ≠ (y :: t) := by
          intro hcon
          rw [List.cons.injEq] at hcon
          exact hxeq hcon.1
        rw [if_neg hxy, if_neg hxeq, if_neg hne, pyStrLE_cons, if_neg hxy, if_neg hxeq]

theorem pyStrLE_cons_same (c : Char) (s t : List Char) :
    pyStrLE (c :: s) (c :: t) = pyStrLE s t := by
  rw [pyStrLE_cons, if_neg (lt_irrefl c), if_pos rfl]

/-- The chronological order on (year, month, day) triples that the
lexicographic string comparison is supposed to realize. -/
def dateLE (a b : Nat × Nat × Nat) : Prop :=
  a.1 < b.1 ∨ (a.1 = b.1 ∧ (a.2.1 < b.2.1 ∨ (a.2.1 = b.2.1 ∧ a.2.2 ≤ b.2.2)))

instance (a b : Nat × Nat × Nat) : Decidable (dateLE a b) := by
  unfold dateLE
  infer_instance

/-- `mkDateStr` in right-nested form. -/
theorem mkDateStr_nested (y m d : Nat) :
    mkDateStr y m d = natDigits y
      ++ ('/' :: (padLeft 2 (natDigits m) ++ ('/' :: padLeft 2 (natDigits d)))) := by
  simp [mkDateStr]

/-- On well-formed date strings, Python's string `<=` agrees with
chronological order of the (year, month, day) triples. -/
theorem pyStrLE_mkDateStr (y₁ m₁ d₁ y₂ m₂ d₂ : Nat)
    (hy₁ : 1000 ≤ y₁) (hy₁u : y₁ ≤ 9999) (hm₁ : m₁ < 100) (hd₁ : d₁ < 100)
    (hy₂ : 1000 ≤ y₂) (hy₂u : y₂ ≤ 9999) (hm₂ : m₂ < 100) (hd₂ : d₂ < 100) :
    (pyStrLE (mkDateStr y₁ m₁ d₁) (mkDateStr y₂ m₂ d₂) = true)
      ↔ dateLE (y₁, m₁, d₁) (y₂, m₂, d₂) := by
  rw [mkDateStr_nested, mkDateStr_nested,
    pyStrLE_append _ _ _ _ (by rw [natDigits_length_four hy₁ hy₁u,
      natDigits_length_four hy₂ hy₂u])]
  by_cases hy : natDigits y₁ = natDigits y₂
  · have hyy : y₁ = y₂ := by
      have := congrArg parseNat hy
      rwa [parseNat_natDigits, parseNat_natDigits] at this
    rw [if_pos hy, pyStrLE_cons_same,
      pyStrLE_append _ _ _ _ (by rw [padLeft_two_length hm₁, padLeft_two_length hm₂])]
    by_cases hm : padLeft 2 (natDigits m₁) = padLeft 2 (natDigits m₂)
    · have hmm : m₁ = m₂ := padLeft_natDigits_inj hm
      rw [if_pos hm, pyStrLE_cons_same,
        pyStrLE_digits _ _ (isDigitStr_padLeft 2 d₁) (isDigitStr_padLeft 2 d₂)
          (by rw [padLeft_two_length hd₁, padLeft_two_length hd₂]),
        parseNat_padLeft, parseNat_padLeft]
      simp only [dateLE]
      omega
    · have hmm : m₁ ≠ m₂ := fun hcon => hm (by rw [hcon])
      rw [if_neg hm,
        pyStrLE_digits _ _ (isDigitStr_padLeft 2 m₁) (isDigitStr_padLeft 2 m₂)
          (by rw [padLeft_two_length hm₁, padLeft_two_length hm₂]),
        parseNat_padLeft, parseNat_padLeft]
      simp only [dateLE]
      omega
  · have hyy : y₁ ≠ y₂ := fun hcon => hy (by rw [hcon])
    rw [if_neg hy,
      pyStrLE_digits _ _ (isDigitStr_natDigits y₁) (isDigitStr_natDigits y₂)
        (by rw [natDigits_length_four hy₁ hy₁u, natDigits_length_four hy₂ hy₂u]),
      parseNat_natDigits, parseNat_natDigits]
    simp only [dateLE]
    omega

/-- **C5.** For every query date and station catalog with well-formed
dates, `get_data_by_day` selects exactly the stations whose establishment
date is on or before the query date: the station-id list produced by the
`Date_of_Establishment <= date` filter equals the id list of the stations
whose (year, month, day) establishment triple is chronologically `≤` the
query triple. -/
theorem get_data_by_day_station_gate
    (stations : List (Nat × Nat × Nat × Nat)) (y m d : Nat)
    (hy : 1000 ≤ y) (hyu : y ≤ 9999) (hm : m < 100) (hd : d < 100)
    (hs : ∀ p ∈ stations,
      1000 ≤ p.2.1 ∧ p.2.1 ≤ 9999 ∧ p.2.2.1 < 100 ∧ p.2.2.2 < 100) :
    availableStations
        (stations.map fun p => ⟨p.1, mkDateStr p.2.1 p.2.2.1 p.2.2.2⟩)
        (mkDateStr y m d)
      = (stations.filter fun p => decide (dateLE p.2 (y, m, d))).map Prod.fst := by
  unfold availableStations
  rw [List.filter_map, List.map_map]
  have hcongr : List.filter
        ((fun s => pyStrLE s.establishment (mkDateStr y m d)) ∘
          fun p : Nat × Nat × Nat × Nat => (⟨p.1, mkDateStr p.2.1 p.2.2.1 p.2.2.2⟩ : StationInfo))
        stations
      = List.filter (fun p => decide (dateLE p.2 (y, m, d))) stations := by
    apply List.filter_congr
    intro p hp
    obtain ⟨h1, h2, h3, h4⟩ := hs p hp
    show pyStrLE (mkDateStr p.2.1 p.2.2.1 p.2.2.2) (mkDateStr y m d)
      = decide (dateLE p.2 (y, m, d))
    have hiff := pyStrLE_mkDateStr p.2.1 p.2.2.1 p.2.2.2 y m d h1 h2 h3 h4 hy hyu hm hd
    cases hdec : decide (dateLE p.2 (y, m, d)) with
    | false =>
      have hnd : ¬ dateLE p.2 (y, m, d) := of_decide_eq_false hdec
      cases hb : pyStrLE (mkDateStr p.2.1 p.2.2.1 p.2.2.2) (mkDateStr y m d) with
      | false => rfl
      | true => exact absurd (hiff.mp hb) hnd
    | true => exact hiff.mpr (of_decide_eq_true hdec)
  rw [hcongr]
  rfl

/-- Witness for C5: with a catalog of a station established `1400/01/01`
and one established `1402/03/05`, querying day `1402/02/01` selects exactly
the first. -/
theorem get_data_by_day_station_gate_witness :
    availableStations
        (([(1, 1400, 1, 1), (2, 1402, 3, 5)] : List (Nat × Nat × Nat × Nat)).map
          fun p => ⟨p.1, mkDateStr p.2.1 p.2.2.1 p.2.2.2⟩)
        (mkDateStr 1402 2 1) = [1] := by
  have h := get_data_by_day_station_gate [(1, 1400, 1, 1), (2, 1402, 3, 5)] 1402 2 1
    (by decide) (by decide) (by decide) (by decide) (by decide)
  exact h.trans (by decide)

/-! ## C6: the "no records" sentinel (`get_data_by_day`, src/airnow.py lines 393-402)

```python
station_tables = []
for station in available_stations:
    station_table = self.get_data_by_station(year, month, day, station)
    if station_table["Station"].iloc[0] == "رکوردی برای نمایش موجود نیست.":
        continue
    station_tables.append(station_table)
if len(station_tables) == 0:
    return None
table = pd.concat(station_tables, ignore_index=True)
```

`fetch` abstracts `get_data_by_station` (one request + `_clean_input_table`
per station). `iloc[0]` presumes a nonempty table, so the theorem carries
that hypothesis; `List.headD` merely totalizes the model. -/

/-- The source's literal "no records available" sentinel cell. -/
def noRecordsMsg : List Char := "رکوردی برای نمایش موجود نیست.".toList

/-- One row of a station-day table after `_clean_input_table`: its
`Station` cell and the remaining cells. -/
structure ScrapedRow where
  station : List Char
  cells : List (List Char)
deriving DecidableEq, Inhabited

/-- The per-station loop of `get_data_by_day`: a table whose first row's
`Station` cell is the sentinel is skipped (`continue`), every other table
is appended in order. -/
def stationLoop (fetch : Nat → List ScrapedRow) : List Nat → List (List ScrapedRow)
  | [] => []
  | s :: rest =>
    if ((fetch s).headD default).station = noRecordsMsg then stationLoop fetch rest
    else fetch s :: stationLoop fetch rest

/-- The collection step of `get_data_by_day`: `None` when no station table
survived the sentinel filter, otherwise the concatenation of the surviving
tables. -/
def get_data_by_day (fetch : Nat → List ScrapedRow) (available : List Nat) :
    Option (List ScrapedRow) :=
  if stationLoop fetch available = [] then none
  else some (stationLoop fetch available).flatten

/-- **C6.** Station-day tables whose first row carries the "no records"
sentinel contribute zero rows to `get_data_by_day`: the surviving tables
are exactly the fetched tables whose first row is not the sentinel (so the
concatenated result contains no row of any sentinel table), and when every
eligible station yields the sentinel — in particular when there is no
eligible station — `get_data_by_day` returns `None` instead of raising. -/
theorem get_data_by_day_sentinel_spec (fetch : Nat → List ScrapedRow)
    (available : List Nat) (_hne : ∀ s ∈ available, fetch s ≠ []) :
    stationLoop fetch available
        = (available.map fetch).filter
            (fun t => !decide ((t.headD default).station = noRecordsMsg)) ∧
    ((∀ s ∈ available, ((fetch s).headD default).station = noRecordsMsg) →
      get_data_by_day fetch available = none) ∧
    (get_data_by_day fetch available = none ∨
      get_data_by_day fetch available
        = some ((available.map fetch).filter
            (fun t => !decide ((t.headD default).station = noRecordsMsg))).flatten) := by
  have hloop : ∀ l : List Nat, stationLoop fetch l
      = (l.map fetch).filter
          (fun t => !decide ((t.headD default).station = noRecordsMsg)) := by
    intro l
    induction l with
    | nil => rfl
    | cons s rest ih =>
      by_cases hcond : ((fetch s).headD default).station = noRecordsMsg
      · simp [stationLoop, List.filter_cons, hcond, ih]
      · simp [stationLoop, List.filter_cons, hcond, ih]
  refine ⟨hloop available, ?_, ?_⟩
  · intro hall
    have hnil : stationLoop fetch available = [] := by
      rw [hloop available, List.filter_eq_nil_iff]
      intro t ht
      obtain ⟨s, hsmem, rfl⟩ := List.mem_map.mp ht
      have hthis := hall s hsmem
      simp only [List.headD_eq_head?_getD] at hthis
      simp [hthis]
    unfold get_data_by_day
    rw [if_pos hnil]
  · by_cases hnil : stationLoop fetch available = []
    · exact Or.inl (by unfold get_data_by_day; rw [if_pos hnil])
    · refine Or.inr ?_
      unfold get_data_by_day
      rw [if_neg hnil, hloop available]

/-- Concrete scraped rows for the C6 witness. -/
def sentinelRow : ScrapedRow := ⟨noRecordsMsg, []⟩

def dataRowC : ScrapedRow := ⟨"Aqdasiyeh".toList, [['7']]⟩

/-- Witness fetcher: station 1 answers with the sentinel table, every other
station with a data table. -/
def fetchC : Nat → List ScrapedRow := fun s => if s = 1 then [sentinelRow] else [dataRowC]

/-- Witness for C6: with stations `[1, 2]` the sentinel table of station 1
is dropped and only station 2's table survives; with station `[1]` alone
the result is `None`. -/
theorem get_data_by_day_sentinel_spec_witness :
    stationLoop fetchC [1, 2] = [[dataRowC]] ∧ get_data_by_day fetchC [1] = none := by
  refine ⟨((get_data_by_day_sentinel_spec fetchC [1, 2] (by decide)).1).trans (by decide), ?_⟩
  exact (get_data_by_day_sentinel_spec fetchC [1] (by decide)).2.1 (by decide)

/-! ## C9, C10: `_clean_output_table` under unknown stations and `None` input
(src/airnow.py lines 268-278 and 464-486)

```python
def get_data(self, year=None, month=None, day=None, station=None):
    if month is None:
        data = self.get_data_by_year(year)
    elif day is None:
        data = self.get_data_by_month(year, month)
    elif station is None:
        data = self.get_data_by_day(year, month, day)
    else:
        data = self.get_data_by_station(year, month, day, station)
    data = self._clean_output_table(data)
    return data

def _clean_output_table(self, table):
    station_ids = { ... }
    table["Station"] = table["Station"].map(station_ids)
    table["Hour"] = table["Hour"].astype("int")
    table.index = table.apply(lambda row: f"...", axis="columns")
    ...
```

pandas `Series.map(dict)` silently yields `NaN` for keys absent from the
dict (modelled `none`), and `str(nan)` is `"nan"`; `None["Station"]` raises
`TypeError`. The pollutant-cell float coercion acts only on the pollutant
columns and is kept verbatim here, as no claim depends on it; `Hour` is
modelled by the integer that `astype("int")` produces. -/

/-- One row of the cleaned station-day input table (`_clean_input_table`
output). -/
structure InRow where
  date : List Char
  hour : Nat
  station : List Char
  pollutants : List (List Char)
deriving DecidableEq, Inhabited

/-- `table["Station"].map(station_ids)` on one cell: the mapped id, or the
`NaN` of pandas `.map` (`none`) when the display name is not in the dict. -/
def mapStation (catalog : List (List Char × Nat)) (name : List Char) : Option Nat :=
  (catalog.find? fun p => decide (p.1 = name)).map Prod.snd

/-- `str(row.Station)` after the mapping: an integer renders as decimal
digits, the `NaN` of an unmapped name renders as `"nan"`. -/
def stationCell : Option Nat → List Char
  | some s => natDigits s
  | none => ['n', 'a', 'n']

/-- One output row of `_clean_output_table`: the composite-key index, the
canonical `(Date, Hour, Station, pollutants...)` column layout. -/
structure OutRow where
  id : List Char
  date : List Char
  hour : Nat
  station : Option Nat
  pollutants : List (List Char)
deriving DecidableEq

/-- `_clean_output_table` on one row: map the station display name, build
the composite key from date, hour and the rendered station value. -/
def _clean_output_row (catalog : List (List Char × Nat)) (r : InRow) : OutRow :=
  { id := removeSlash r.date ++ hourStr r.hour
      ++ padLeft 3 (stationCell (mapStation catalog r.station))
    date := r.date
    hour := r.hour
    station := mapStation catalog r.station
    pollutants := r.pollutants }

def _clean_output_table (catalog : List (List Char × Nat)) (rows : List InRow) :
    List OutRow :=
  rows.map (_clean_output_row catalog)

/-- For a display name the catalog does know, the row's index is exactly the
composite key of C1. -/
theorem _clean_output_row_id_known (catalog : List (List Char × Nat)) (r : InRow)
    (s : Nat) (h : mapStation catalog r.station = some s) :
    (_clean_output_row catalog r).id = compositeKey r.date r.hour s := by
  unfold _clean_output_row compositeKey stationStr
  rw [h]
  rfl

/-- **C9** (code bug). `_clean_output_table` on a table holding a station
display name absent from the catalog does not fail: pandas `.map` yields a
`NaN` (`none`) station id and the function returns a row whose station is
unmapped and whose composite key ends in `"nan"`, where the spec requires
an `UnknownStationError`. -/
theorem clean_output_unknown_station_no_error :
    mapStation [("A".toList, 1)] "B".toList = none ∧
    _clean_output_table [("A".toList, 1)] [⟨"1402/02/01".toList, 5, "B".toList, []⟩]
      = [⟨"1402020105nan".toList, "1402/02/01".toList, 5, none, []⟩] := by
  constructor
  · decide
  · decide

/-- The Python exception surfaced by `get_data` when the dispatched
retrieval returned `None`. -/
inductive PyError where
  | typeError
deriving DecidableEq

/-- `_clean_output_table` as invoked by `get_data` on the dispatch result:
on `None`, the very first subscript `table["Station"]` raises `TypeError`
(`NoneType` is not subscriptable). -/
def _clean_output_table_checked (catalog : List (List Char × Nat)) :
    Option (List InRow) → Except PyError (List OutRow)
  | none => Except.error PyError.typeError
  | some rows => Except.ok (_clean_output_table catalog rows)

/-- The dispatch of `get_data`: `month` absent → by-year; `day` absent →
by-month; `station` absent → by-day; otherwise by-station (which always
produces a table). The `by*` arguments are the values the corresponding
retrieval methods return for this query. -/
def dispatchData (byYear byMonth byDay : Option (List InRow)) (byStation : List InRow)
    (month day station : Option Nat) : Option (List InRow) :=
  match month with
  | none => byYear
  | some _ =>
    match day with
    | none => byMonth
    | some _ =>
      match station with
      | none => byDay
      | some _ => some byStation

/-- `get_data`: dispatch on the present arguments, then unconditionally
clean the result. -/
def get_data (catalog : List (List Char × Nat))
    (byYear byMonth byDay : Option (List InRow)) (byStation : List InRow)
    (month day station : Option Nat) : Except PyError (List OutRow) :=
  _clean_output_table_checked catalog
    (dispatchData byYear byMonth byDay byStation month day station)

/-- **C10.** Whenever the dispatched retrieval method returns the null
"no data" result, `get_data` does not return it to the caller: it applies
`_clean_output_table` to `None` unconditionally and therefore raises
`TypeError`, so "no data available" surfaces from `get_data` only as an
error, never as a null return. -/
theorem get_data_none_raises (catalog : List (List Char × Nat))
    (byYear byMonth byDay : Option (List InRow)) (byStation : List InRow)
    (month day station : Option Nat)
    (h : dispatchData byYear byMonth byDay byStation month day station = none) :
    get_data catalog byYear byMonth byDay byStation month day station
      = Except.error PyError.typeError := by
  unfold get_data
  rw [h]
  rfl

/-- Witness for C10: a year-granularity query whose `get_data_by_year`
returned `None` makes `get_data` raise. -/
theorem get_data_none_raises_witness :
    get_data [] none none none [] none none none = Except.error PyError.typeError :=
  get_data_none_raises [] none none none [] none none none rfl

end AirQua
